import Mathlib

/-!
Shallow embedding of the logspec rule engine:
  - src/src/utils/euCountries.ts        (EU_COUNTRIES, isEUCountry)
  - src/src/utils/matrixParser.ts       (parseMatrix, findSimilarShipMethods,
                                         parseCountries, countryMatches)
  - the filter module (filterLogspecLines) and isCountryOutsideEU from the
    data-parser module.

JavaScript string primitives (trim, split, toLowerCase, toUpperCase,
includes, startsWith, replace with a global literal pattern, and the
regex scan for word-bounded 2-3 letter uppercase tokens) are embedded as
executable functions on lists of characters.  JavaScript Set objects are
embedded as duplicate-free lists in insertion order; Map objects as
association lists in insertion order, with Map.set updating in place.
-/

namespace Logspec

/-- JS whitespace as relevant here (space, tab, newline, carriage return). -/
def isWsChar (c : Char) : Bool := c = ' ' || c = '\t' || c = '\n' || c = '\r'

/-- `String.prototype.trim`. -/
def jsTrim (s : String) : String :=
  String.mk (((s.data.dropWhile isWsChar).reverse.dropWhile isWsChar).reverse)

/-- Auxiliary for `split`: accumulates the current piece in reverse. -/
def jsSplitAux (p : Char → Bool) : List Char → List Char → List String
  | cur, [] => [String.mk cur.reverse]
  | cur, c :: rest =>
      if p c then String.mk cur.reverse :: jsSplitAux p [] rest
      else jsSplitAux p (c :: cur) rest

/-- `String.prototype.split` on a character class. -/
def jsSplitP (p : Char → Bool) (s : String) : List String := jsSplitAux p [] s.data

/-- `String.prototype.split` on a single-character separator. -/
def jsSplitC (sep : Char) (s : String) : List String := jsSplitP (fun c => c = sep) s

/-- `String.prototype.toLowerCase` (ASCII, as used by the source). -/
def jsToLower (s : String) : String := String.mk (s.data.map Char.toLower)

/-- `String.prototype.toUpperCase` (ASCII, as used by the source). -/
def jsToUpper (s : String) : String := String.mk (s.data.map Char.toUpper)

/-- Whether the first list is a leading segment of the second. -/
def headMatch : List Char → List Char → Bool
  | [], _ => true
  | _ :: _, [] => false
  | c :: cs, d :: ds => c = d && headMatch cs ds

/-- Whether `pat` occurs contiguously in the list. -/
def occursIn (pat : List Char) : List Char → Bool
  | [] => headMatch pat []
  | c :: rest => headMatch pat (c :: rest) || occursIn pat rest

/-- `String.prototype.includes`. -/
def jsIncludes (s pat : String) : Bool := occursIn pat.data s.data

/-- `String.prototype.startsWith`. -/
def jsStarts (s pat : String) : Bool := headMatch pat.data s.data

/-- `Array.prototype.join` with a single-character separator. -/
def joinSep (sep : Char) (l : List String) : String :=
  String.mk (List.intercalate [sep] (l.map String.data))

/-- Fuel-based worker for `String.prototype.replace` with a global literal
pattern: leftmost, non-overlapping, the replacement is not rescanned. -/
def replaceAllAux (pat repl : List Char) : Nat → List Char → List Char
  | _, [] => []
  | 0, l => l
  | fuel + 1, c :: rest =>
      if !pat.isEmpty && headMatch pat (c :: rest) then
        repl ++ replaceAllAux pat repl fuel ((c :: rest).drop pat.length)
      else c :: replaceAllAux pat repl fuel rest

/-- `String.prototype.replace` with a global (`/g`) literal pattern. -/
def jsReplaceAll (s pat repl : String) : String :=
  String.mk (replaceAllAux pat.data repl.data s.data.length s.data)

/-- ASCII uppercase letter, the `[A-Z]` class of the source regex. -/
def isUpperAZ (c : Char) : Bool := 'A' ≤ c && c ≤ 'Z'

/-- JS regex word character `\w`, i.e. `[A-Za-z0-9_]`;
`\b` holds between a word and a non-word character (or a string edge). -/
def isWordChar (c : Char) : Bool :=
  ('A' ≤ c && c ≤ 'Z') || ('a' ≤ c && c ≤ 'z') || ('0' ≤ c && c ≤ '9') || c = '_'

/-- Whether a `\b` word boundary holds before the given tail of the input
(the character just consumed was a word character). -/
def boundaryAfter : List Char → Bool
  | [] => true
  | c :: _ => !isWordChar c

/-- The exec loop of `/\b([A-Z]{2,3})\b/g` over the input: at each position
with a word boundary before it, greedily try a three-letter then a
two-letter uppercase run ending at a word boundary; on success resume after
the match, on failure advance one character.  The boolean argument records
whether the previous character was a word character. -/
def scanCodes : Bool → List Char → List String
  | _, [] => []
  | _, [_] => []
  | pw, [c, c2] =>
      if !pw && isUpperAZ c && isUpperAZ c2 then [String.mk [c, c2]]
      else scanCodes (isWordChar c) [c2]
  | pw, c :: c2 :: c3 :: rest3 =>
      if !pw && isUpperAZ c && isUpperAZ c2 then
        if isUpperAZ c3 then
          if boundaryAfter rest3 then String.mk [c, c2, c3] :: scanCodes true rest3
          else scanCodes (isWordChar c) (c2 :: c3 :: rest3)
        else if !isWordChar c3 then String.mk [c, c2] :: scanCodes true (c3 :: rest3)
        else scanCodes (isWordChar c) (c2 :: c3 :: rest3)
      else scanCodes (isWordChar c) (c2 :: c3 :: rest3)

/-- JS `Set.prototype.add`: append unless already present (insertion order). -/
def setAdd (s : List String) (x : String) : List String :=
  if x ∈ s then s else s ++ [x]

/-- euCountries.ts: the hardcoded EU bloc (members plus CH and NO). -/
def EU_COUNTRIES : List String :=
  ["AT", "BE", "BG", "HR", "CY", "CZ", "DK", "EE", "FI", "FR", "DE", "GR",
   "HU", "IE", "IT", "LV", "LT", "LU", "MT", "NL", "PL", "PT", "RO", "SK",
   "SI", "ES", "SE", "CH", "NO"]

/-- euCountries.ts: `isEUCountry`. -/
def isEUCountry (countryCode : String) : Bool :=
  if jsToUpper countryCode ∈ EU_COUNTRIES then true else false

/-- dataParser module: `isCountryOutsideEU`. -/
def isCountryOutsideEU (country : String) : Bool := !isEUCountry country

/-- matrixParser.ts: the deny-list of code-shaped non-country tokens. -/
def skipCodes : List String := ["EA", "XY", "NC"]

/-- matrixParser.ts: the inline EU expansion list inside `parseCountries`
(duplicated in the source from euCountries.ts). -/
def euExpansionList : List String :=
  ["AT", "BE", "BG", "HR", "CY", "CZ", "DK", "EE", "FI", "FR", "DE", "GR",
   "HU", "IE", "IT", "LV", "LT", "LU", "MT", "NL", "PL", "PT", "RO", "SK",
   "SI", "ES", "SE", "CH", "NO"]

/-- The test `/^[A-Z]{2,3}$/.test code` of `parseCountries`. -/
def isAllUpper23 (s : String) : Bool :=
  if (s.data.length = 2 ∨ s.data.length = 3) ∧ ∀ c ∈ s.data, isUpperAZ c = true then
    true
  else false

/-- matrixParser.ts: `parseCountries`.  Union (in insertion order) of the
"Within EU" expansion, the "Outside of EU" sentinel, the word-bounded
uppercase-run scan (minus the deny-list), and the pipe/slash-separated
pieces of code shape (minus the deny-list). -/
def parseCountries (countriesStr : String) : List String :=
  if countriesStr = "" then []
  else
    let cs1 :=
      if jsIncludes countriesStr "Within EU" then
        euExpansionList.foldl setAdd []
      else []
    let cs2 :=
      if jsIncludes countriesStr "Outside of EU" then setAdd cs1 "__OUTSIDE_EU__"
      else cs1
    let cs3 :=
      (scanCodes false countriesStr.data).foldl
        (fun acc code => if code ∈ skipCodes then acc else setAdd acc code) cs2
    let pieces :=
      ((jsSplitP (fun c => c = '|' || c = '/') countriesStr).map jsTrim).filter
        (fun s => s.data.length = 2 || s.data.length = 3)
    pieces.foldl
      (fun acc code =>
        if isAllUpper23 code = true ∧ code ∉ skipCodes then setAdd acc code
        else acc) cs3

/-- matrixParser.ts: `countryMatches`.  (The trailing `isEUCountry` block in
the source is dead code: its body is empty, so it is omitted here.) -/
def countryMatches (country : String) (allowedCountries : List String)
    (isOutsideEU : Bool) : Bool :=
  let upperCountry := jsToUpper country
  if upperCountry ∈ allowedCountries then true
  else if "__OUTSIDE_EU__" ∈ allowedCountries ∧ isOutsideEU = true then true
  else false

/-- `Map<string, Set<string>>` as an association list in insertion order. -/
abbrev MatrixLookup := List (String × List String)

/-- `Map.prototype.get`. -/
def lookupGet : MatrixLookup → String → Option (List String)
  | [], _ => none
  | (k', v') :: rest, k => if k' = k then some v' else lookupGet rest k

/-- `Map.prototype.set`: update in place if the key exists, else append. -/
def lookupSet : MatrixLookup → String → List String → MatrixLookup
  | [], k, v => [(k, v)]
  | (k', v') :: rest, k, v =>
      if k' = k then (k, v) :: rest else (k', v') :: lookupSet rest k v

/-- Keys of the `entriesWithEmptyCountries` map, in first-insertion order
(the stored counts are never read by the source, so only keys are kept). -/
def trackAdd (l : List String) (k : String) : List String :=
  if k ∈ l then l else l ++ [k]

/-- matrixParser.ts: the normalization chain applied to ship-method keys in
`findSimilarShipMethods` (strip `_LICENSE`, `_UD`, fold `AIRHAZ` to `AIR`,
strip `_HAZ`, `_DEF`, then lowercase). -/
def normalizeKey (s : String) : String :=
  jsToLower
    (jsReplaceAll
      (jsReplaceAll
        (jsReplaceAll
          (jsReplaceAll (jsReplaceAll s "_LICENSE" "") "_UD" "")
          "AIRHAZ" "AIR")
        "_HAZ" "")
      "_DEF" "")

/-- The loop body of `findSimilarShipMethods`: keep an entry when it is a
different key with a nonempty set and either its normalized form equals the
target's, or (with a nonempty base stem) it starts with the base stem plus
separator and holds at least 5 countries. -/
def similarKeep (shipMethod basePattern baseStem : String)
    (entry : String × List String) : Bool :=
  if entry.1 = shipMethod ∨ entry.2.length = 0 then false
  else if normalizeKey entry.1 = basePattern then true
  else if baseStem ≠ "" ∧ jsStarts (jsToLower entry.1) (baseStem ++ "_") = true then
    if 5 ≤ entry.2.length then true else false
  else false

/-- matrixParser.ts: `findSimilarShipMethods`. -/
def findSimilarShipMethods (shipMethod : String) (lookup : MatrixLookup) :
    List String :=
  let basePattern := normalizeKey shipMethod
  let parts := jsSplitC '_' shipMethod
  let baseStem :=
    if parts.length > 2 then jsToLower (joinSep '_' parts.dropLast) else ""
  (lookup.filter (similarKeep shipMethod basePattern baseStem)).map Prod.fst

/-- The first-pass loop body of `parseMatrix`: skip blank lines, lines with
fewer than three tab fields, a tag other than case-insensitive "LogSpec",
or an empty ship method; otherwise parse the country field, track the key
when the country field was empty after trimming and parsed to nothing, and
union the parsed countries into the key's set. -/
def parseMatrixLine (acc : MatrixLookup × List String) (line : String) :
    MatrixLookup × List String :=
  let trimmed := jsTrim line
  if trimmed = "" then acc
  else
    let parts := jsSplitC '\t' trimmed
    if parts.length < 3 then acc
    else
      let tag := jsTrim (parts.getD 0 "")
      let shipMethod := jsTrim (parts.getD 1 "")
      let countriesStr := jsTrim (parts.getD 2 "")
      if jsToLower tag ≠ "logspec" then acc
      else if shipMethod = "" then acc
      else
        let countries := parseCountries countriesStr
        let tracked :=
          if countries.length = 0 ∧ jsTrim countriesStr = "" then
            trackAdd acc.2 shipMethod
          else acc.2
        let cur := (lookupGet acc.1 shipMethod).getD []
        let merged := countries.foldl setAdd cur
        (lookupSet acc.1 shipMethod merged, tracked)

/-- Pass 1 of `parseMatrix`: the lookup and the tracked empty-country keys. -/
def pass1 (matrixText : String) : MatrixLookup × List String :=
  (jsSplitC '\n' matrixText).foldl parseMatrixLine ([], [])

/-- The lookup after pass 1. -/
def pass1Lookup (matrixText : String) : MatrixLookup := (pass1 matrixText).1

/-- The ship methods tracked as having an empty-country line. -/
def trackedKeys (matrixText : String) : List String := (pass1 matrixText).2

/-- One step of the second (inference) pass of `parseMatrix`: if the tracked
key still has an empty set, union into it the sets of all its similar
methods found in the current lookup state. -/
def pass2step (lookup : MatrixLookup) (shipMethod : String) : MatrixLookup :=
  match lookupGet lookup shipMethod with
  | none => lookup
  | some countrySet =>
      if countrySet.length = 0 then
        let similarMethods := findSimilarShipMethods shipMethod lookup
        let newSet :=
          similarMethods.foldl
            (fun cs m =>
              match lookupGet lookup m with
              | some sc => if sc.length > 0 then sc.foldl setAdd cs else cs
              | none => cs) countrySet
        lookupSet lookup shipMethod newSet
      else lookup

/-- matrixParser.ts: `parseMatrix` (pass 1 then the inference pass over the
tracked keys in insertion order). -/
def parseMatrix (matrixText : String) : MatrixLookup :=
  let p := pass1 matrixText
  p.2.foldl pass2step p.1

/-- dataParser.ts: the record row (fields beyond ship method and country are
passed through unexamined by the core). -/
structure DataRow where
  delivery : String
  shipMethod : String
  country : String
  customer : String
  outboundPendingLines : String
deriving DecidableEq, Repr

/-- The filter predicate of `filterLogspecLines`: trim ship method and
country, reject when either is empty, when the method is absent from the
lookup, or when its set is empty; otherwise defer to `countryMatches`. -/
def isLogspecLine (row : DataRow) (matrix : MatrixLookup) : Bool :=
  let shipMethod := jsTrim row.shipMethod
  let country := jsTrim row.country
  if shipMethod = "" ∨ country = "" then false
  else
    match lookupGet matrix shipMethod with
    | none => false
    | some allowedCountries =>
        if allowedCountries.length = 0 then false
        else countryMatches country allowedCountries (isCountryOutsideEU country)

/-- filter module: `filterLogspecLines`. -/
def filterLogspecLines (rows : List DataRow) (matrix : MatrixLookup) :
    List DataRow :=
  rows.filter (fun row => isLogspecLine row matrix)

/-- Whether a line survives all the guards of the first-pass loop
(used to state that an all-invalid table yields an empty lookup). -/
def lineAccepted (line : String) : Bool :=
  let trimmed := jsTrim line
  if trimmed = "" then false
  else
    let parts := jsSplitC '\t' trimmed
    if parts.length < 3 then false
    else if jsToLower (jsTrim (parts.getD 0 "")) ≠ "logspec" then false
    else if jsTrim (parts.getD 1 "") = "" then false
    else true

/-- Whether the context just before a scan position permits a `\b` boundary
when the next character is a word character: the preceding text `a` is empty
with the flag down, or ends in a non-word character. -/
def endsNonWord (pw : Bool) (a : List Char) : Bool :=
  match a.getLast? with
  | none => !pw
  | some d => !isWordChar d

/-! ### Basic lemmas about the JS `Set`/`Map` embeddings -/

theorem mem_setAdd {s : List String} {x y : String} :
    x ∈ setAdd s y ↔ x ∈ s ∨ x = y := by
  unfold setAdd
  split
  · next h =>
      constructor
      · exact fun hx => Or.inl hx
      · rintro (hx | rfl)
        · exact hx
        · exact h
  · simp

theorem mem_setAdd_of_mem {s : List String} {x y : String} (h : x ∈ s) :
    x ∈ setAdd s y := mem_setAdd.mpr (Or.inl h)

theorem mem_setAdd_self {s : List String} {y : String} : y ∈ setAdd s y :=
  mem_setAdd.mpr (Or.inr rfl)

theorem mem_foldl_setAdd (l : List String) :
    ∀ (s : List String) (x : String), x ∈ l.foldl setAdd s ↔ x ∈ s ∨ x ∈ l := by
  induction l with
  | nil => simp
  | cons y t ih =>
      intro s x
      rw [List.foldl_cons, ih (setAdd s y) x, mem_setAdd]
      simp only [List.mem_cons]
      tauto

theorem lookupGet_lookupSet_ne (l : MatrixLookup) (k k2 : String)
    (v : List String) (h : k ≠ k2) :
    lookupGet (lookupSet l k v) k2 = lookupGet l k2 := by
  induction l with
  | nil => simp [lookupSet, lookupGet, h]
  | cons e t ih =>
      obtain ⟨k', v'⟩ := e
      by_cases hk : k' = k
      · subst hk
        simp [lookupSet, lookupGet, h]
      · simp only [lookupSet, if_neg hk]
        by_cases hk2 : k' = k2
        · simp [lookupGet, hk2]
        · simp [lookupGet, hk2, ih]

theorem lookupGet_mem {l : MatrixLookup} {k : String} {s : List String}
    (h : lookupGet l k = some s) : (k, s) ∈ l := by
  induction l with
  | nil => simp [lookupGet] at h
  | cons e t ih =>
      obtain ⟨k', v'⟩ := e
      simp only [lookupGet] at h
      split at h
      · next heq =>
          obtain rfl := Option.some.inj h
          subst heq
          exact List.mem_cons_self _ _
      · exact List.mem_cons_of_mem _ (ih h)

theorem mem_lookupSet {l : MatrixLookup} {k : String} {v : List String}
    {p : String × List String} (h : p ∈ lookupSet l k v) :
    p ∈ l ∨ p = (k, v) := by
  induction l with
  | nil => simpa [lookupSet] using h
  | cons e t ih =>
      obtain ⟨k', v'⟩ := e
      simp only [lookupSet] at h
      split at h
      · rcases List.mem_cons.mp h with rfl | h'
        · exact Or.inr rfl
        · exact Or.inl (List.mem_cons_of_mem _ h')
      · rcases List.mem_cons.mp h with rfl | h'
        · exact Or.inl (List.mem_cons_self _ _)
        · rcases ih h' with h2 | h2
          · exact Or.inl (List.mem_cons_of_mem _ h2)
          · exact Or.inr h2

/-! ### Lemmas about the word-boundary context -/

theorem isWordChar_of_isUpperAZ {c : Char} (h : isUpperAZ c = true) :
    isWordChar c = true := by
  unfold isUpperAZ at h
  unfold isWordChar
  simp only [Bool.and_eq_true, Bool.or_eq_true] at h ⊢
  tauto

theorem endsNonWord_append (pw pw2 : Bool) (xs a : List Char) (ha : a ≠ []) :
    endsNonWord pw (xs ++ a) = endsNonWord pw2 a := by
  obtain ⟨d, hd⟩ : ∃ d, a.getLast? = some d := by
    cases a with
    | nil => exact absurd rfl ha
    | cons c t => exact ⟨(c :: t).getLast (by simp), List.getLast?_eq_getLast _ _⟩
  unfold endsNonWord
  rw [List.getLast?_append, hd]
  rfl

theorem endsNonWord_extend {pw pw2 : Bool} {xs a : List Char}
    (h : endsNonWord pw2 a = true)
    (hemp : a = [] → endsNonWord pw xs = true) :
    endsNonWord pw (xs ++ a) = true := by
  cases a with
  | nil => simpa using hemp rfl
  | cons c t =>
      rw [endsNonWord_append pw pw2 xs (c :: t) (by simp)]
      exact h

/-! ### Soundness of the uppercase-run scanner: every emitted code is a
2-3 letter uppercase run with a word boundary on each side. -/

theorem scanCodes_sound :
    ∀ (pw : Bool) (l : List Char) (code : String), code ∈ scanCodes pw l →
      ((code.data.length = 2 ∨ code.data.length = 3) ∧
        (∀ c ∈ code.data, isUpperAZ c = true)) ∧
      ∃ a b, l = a ++ code.data ++ b ∧ endsNonWord pw a = true ∧
        boundaryAfter b = true := by
  intro pw l
  induction pw, l using scanCodes.induct with
  | case1 x => intro code h; simp [scanCodes] at h
  | case2 x head => intro code h; simp [scanCodes] at h
  | case3 pw c c2 hcond =>
      intro code h
      simp only [scanCodes, hcond, if_true, List.mem_singleton] at h
      subst h
      rw [Bool.and_eq_true, Bool.and_eq_true, Bool.not_eq_true'] at hcond
      obtain ⟨⟨hpw, hc⟩, hc2⟩ := hcond
      refine ⟨⟨Or.inl rfl, ?_⟩, [], [], by simp, by simp [endsNonWord, hpw], rfl⟩
      intro x hx
      rcases List.mem_cons.mp hx with rfl | hx
      · exact hc
      · rcases List.mem_cons.mp hx with rfl | hx
        · exact hc2
        · cases hx
  | case4 pw c c2 hcond ih =>
      intro code h
      simp [scanCodes, hcond] at h
  | case5 pw c c2 c3 rest3 hcond h3 hb ih =>
      intro code h
      simp only [scanCodes, hcond, h3, hb, if_true] at h
      rcases List.mem_cons.mp h with rfl | h'
      · rw [Bool.and_eq_true, Bool.and_eq_true, Bool.not_eq_true'] at hcond
        obtain ⟨⟨hpw, hc⟩, hc2⟩ := hcond
        refine ⟨⟨Or.inr rfl, ?_⟩, [], rest3, by simp, by simp [endsNonWord, hpw], hb⟩
        intro x hx
        rcases List.mem_cons.mp hx with rfl | hx
        · exact hc
        · rcases List.mem_cons.mp hx with rfl | hx
          · exact hc2
          · rcases List.mem_cons.mp hx with rfl | hx
            · exact h3
            · cases hx
      · obtain ⟨hshape, a, b, hl, ha, hbb⟩ := ih code h'
        refine ⟨hshape, [c, c2, c3] ++ a, b, by rw [hl]; simp, ?_, hbb⟩
        exact endsNonWord_extend ha (fun hae => by subst hae; simp [endsNonWord] at ha)
  | case6 pw c c2 c3 rest3 hcond h3 hb ih =>
      intro code h
      simp only [scanCodes, hcond, h3, hb, if_true, if_false] at h
      obtain ⟨hshape, a, b, hl, ha, hbb⟩ := ih code h
      refine ⟨hshape, [c] ++ a, b, by rw [hl]; simp, ?_, hbb⟩
      refine endsNonWord_extend ha (fun hae => ?_)
      subst hae
      simp only [endsNonWord, List.getLast?] at ha ⊢
      exact ha
  | case7 pw c c2 c3 rest3 hcond h3 hw ih =>
      intro code h
      simp only [scanCodes, hcond, h3, hw, if_true, if_false] at h
      rcases List.mem_cons.mp h with rfl | h'
      · rw [Bool.and_eq_true, Bool.and_eq_true, Bool.not_eq_true'] at hcond
        obtain ⟨⟨hpw, hc⟩, hc2⟩ := hcond
        refine ⟨⟨Or.inl rfl, ?_⟩, [], c3 :: rest3, by simp, by simp [endsNonWord, hpw],
          by simpa [boundaryAfter] using hw⟩
        intro x hx
        rcases List.mem_cons.mp hx with rfl | hx
        · exact hc
        · rcases List.mem_cons.mp hx with rfl | hx
          · exact hc2
          · cases hx
      · obtain ⟨hshape, a, b, hl, ha, hbb⟩ := ih code h'
        refine ⟨hshape, [c, c2] ++ a, b, by rw [hl]; simp, ?_, hbb⟩
        exact endsNonWord_extend ha (fun hae => by subst hae; simp [endsNonWord] at ha)
  | case8 pw c c2 c3 rest3 hcond h3 hw ih =>
      intro code h
      simp only [scanCodes, hcond, h3, hw, if_true, if_false] at h
      obtain ⟨hshape, a, b, hl, ha, hbb⟩ := ih code h
      refine ⟨hshape, [c] ++ a, b, by rw [hl]; simp, ?_, hbb⟩
      refine endsNonWord_extend ha (fun hae => ?_)
      subst hae
      simp only [endsNonWord, List.getLast?] at ha ⊢
      exact ha
  | case9 pw c c2 c3 rest3 hcond ih =>
      intro code h
      simp only [scanCodes, hcond, if_false] at h
      obtain ⟨hshape, a, b, hl, ha, hbb⟩ := ih code h
      refine ⟨hshape, [c] ++ a, b, by rw [hl]; simp, ?_, hbb⟩
      refine endsNonWord_extend ha (fun hae => ?_)
      subst hae
      simp only [endsNonWord, List.getLast?] at ha ⊢
      exact ha

/-! ### Completeness of the scanner for two-letter runs: a two-letter
uppercase run with a word boundary on each side is always emitted. -/

theorem upper_eq_false_of_not_word {c : Char} (h : isWordChar c = false) :
    isUpperAZ c = false := by
  cases hu : isUpperAZ c
  · rfl
  · rw [isWordChar_of_isUpperAZ hu] at h
    cases h

theorem endsNonWord_single (pw : Bool) (c : Char) :
    endsNonWord pw [c] = !isWordChar c := rfl

theorem endsNonWord_cons (pw : Bool) (c : Char) (rest : List Char)
    (h : rest ≠ []) : endsNonWord pw (c :: rest) = endsNonWord pw rest :=
  endsNonWord_append pw pw [c] rest h

theorem endsNonWord_flag (pw pw2 : Bool) (a : List Char) (h : a ≠ []) :
    endsNonWord pw a = endsNonWord pw2 a :=
  endsNonWord_append pw pw2 [] a h

theorem bool_eq_false {b : Bool} (h : ¬ b = true) : b = false := by
  cases b
  · rfl
  · exact absurd rfl h

/-- One-step unfolding of the scanner on a list with at least three known
characters. -/
theorem scanCodes_big (pw : Bool) (c c2 c3 : Char) (rest3 : List Char) :
    scanCodes pw (c :: c2 :: c3 :: rest3) =
      if (!pw && isUpperAZ c && isUpperAZ c2) = true then
        if isUpperAZ c3 = true then
          if boundaryAfter rest3 = true then
            String.mk [c, c2, c3] :: scanCodes true rest3
          else scanCodes (isWordChar c) (c2 :: c3 :: rest3)
        else if (!isWordChar c3) = true then
          String.mk [c, c2] :: scanCodes true (c3 :: rest3)
        else scanCodes (isWordChar c) (c2 :: c3 :: rest3)
      else scanCodes (isWordChar c) (c2 :: c3 :: rest3) := rfl

theorem scanCodes_complete2_head (c1 c2 : Char) (b : List Char)
    (h1 : isUpperAZ c1 = true) (h2 : isUpperAZ c2 = true)
    (hb : boundaryAfter b = true) :
    String.mk [c1, c2] ∈ scanCodes false (c1 :: c2 :: b) := by
  cases b with
  | nil => simp [scanCodes, h1, h2]
  | cons c3 b3 =>
      have hw : isWordChar c3 = false := by simpa [boundaryAfter] using hb
      have h3 : isUpperAZ c3 = false := upper_eq_false_of_not_word hw
      simp [scanCodes, h1, h2, h3, hw]

theorem scanCodes_complete2 :
    ∀ (n : Nat) (a : List Char) (pw : Bool) (c1 c2 : Char) (b : List Char),
      a.length ≤ n →
      endsNonWord pw a = true →
      isUpperAZ c1 = true → isUpperAZ c2 = true →
      boundaryAfter b = true →
      String.mk [c1, c2] ∈ scanCodes pw (a ++ c1 :: c2 :: b) := by
  intro n
  induction n with
  | zero =>
      intro a pw c1 c2 b hlen ha h1 h2 hb
      have haa : a = [] := List.length_eq_zero.mp (Nat.le_zero.mp hlen)
      subst haa
      have hpw : pw = false := by simpa [endsNonWord] using ha
      subst hpw
      exact scanCodes_complete2_head c1 c2 b h1 h2 hb
  | succ n ih =>
      intro a pw c1 c2 b hlen ha h1 h2 hb
      cases a with
      | nil =>
          have hpw : pw = false := by simpa [endsNonWord] using ha
          subst hpw
          exact scanCodes_complete2_head c1 c2 b h1 h2 hb
      | cons c a2 =>
        cases a2 with
        | nil =>
            have hwc : isWordChar c = false := by
              rw [endsNonWord_single] at ha
              simpa using ha
            have hcu : isUpperAZ c = false := upper_eq_false_of_not_word hwc
            simp only [List.cons_append, List.nil_append, scanCodes, hcu,
              Bool.and_false, Bool.false_and, if_false, hwc]
            exact scanCodes_complete2_head c1 c2 b h1 h2 hb
        | cons e a23 =>
          cases a23 with
          | nil =>
              have hwe : isWordChar e = false := by
                rw [endsNonWord_cons pw c [e] (by simp), endsNonWord_single] at ha
                simpa using ha
              have heu : isUpperAZ e = false := upper_eq_false_of_not_word hwe
              show String.mk [c1, c2] ∈ scanCodes pw (c :: e :: c1 :: c2 :: b)
              rw [scanCodes_big]
              have hc0 : (!pw && isUpperAZ c && isUpperAZ e) = false := by
                simp [heu]
              rw [hc0, if_neg Bool.false_ne_true]
              have hlen' : ([e] : List Char).length ≤ n := by
                simp only [List.length_cons, List.length_nil] at hlen ⊢
                omega
              exact ih [e] (isWordChar c) c1 c2 b hlen'
                (by rw [endsNonWord_single]; simpa using hwe) h1 h2 hb
          | cons f a3 =>
              have hrest_ne : (e :: f :: a3 : List Char) ≠ [] := by simp
              have ha' : endsNonWord pw (e :: f :: a3) = true := by
                rw [← endsNonWord_cons pw c _ hrest_ne]
                exact ha
              have hlen3 : a3.length + 3 ≤ n + 1 := by simpa using hlen
              show String.mk [c1, c2] ∈
                scanCodes pw (c :: e :: f :: (a3 ++ c1 :: c2 :: b))
              rw [scanCodes_big]
              by_cases hcond : (!pw && isUpperAZ c && isUpperAZ e) = true
              · rw [hcond, if_pos rfl]
                by_cases huf : isUpperAZ f = true
                · rw [if_pos huf]
                  by_cases hbf : boundaryAfter (a3 ++ c1 :: c2 :: b) = true
                  · rw [if_pos hbf]
                    have ha3ne : a3 ≠ [] := by
                      intro hnil
                      subst hnil
                      rw [endsNonWord_cons _ e [f] (by simp), endsNonWord_single,
                        isWordChar_of_isUpperAZ huf] at ha'
                      cases ha'
                    have ha3 : endsNonWord true a3 = true := by
                      rw [← endsNonWord_append pw true [e, f] a3 ha3ne]
                      exact ha'
                    exact List.mem_cons_of_mem _
                      (ih a3 true c1 c2 b (by omega) ha3 h1 h2 hb)
                  · rw [if_neg hbf]
                    have ha2 : endsNonWord (isWordChar c) (e :: f :: a3) = true := by
                      rw [endsNonWord_flag (isWordChar c) pw _ hrest_ne]
                      exact ha'
                    exact ih (e :: f :: a3) (isWordChar c) c1 c2 b
                      (by simp only [List.length_cons]; omega) ha2 h1 h2 hb
                · rw [if_neg huf]
                  by_cases hwf : isWordChar f = true
                  · have hnw : (!isWordChar f) = false := by simp [hwf]
                    rw [hnw, if_neg Bool.false_ne_true]
                    have ha2 : endsNonWord (isWordChar c) (e :: f :: a3) = true := by
                      rw [endsNonWord_flag (isWordChar c) pw _ hrest_ne]
                      exact ha'
                    exact ih (e :: f :: a3) (isWordChar c) c1 c2 b
                      (by simp only [List.length_cons]; omega) ha2 h1 h2 hb
                  · have hwfF : isWordChar f = false := bool_eq_false hwf
                    have hnw : (!isWordChar f) = true := by simp [hwfF]
                    rw [hnw, if_pos rfl]
                    have haf : endsNonWord true (f :: a3) = true := by
                      rw [← endsNonWord_append pw true [e] (f :: a3) (by simp)]
                      exact ha'
                    exact List.mem_cons_of_mem _
                      (ih (f :: a3) true c1 c2 b
                        (by simp only [List.length_cons]; omega) haf h1 h2 hb)
              · have hc0 : (!pw && isUpperAZ c && isUpperAZ e) = false :=
                  bool_eq_false hcond
                rw [hc0, if_neg Bool.false_ne_true]
                have ha2 : endsNonWord (isWordChar c) (e :: f :: a3) = true := by
                  rw [endsNonWord_flag (isWordChar c) pw _ hrest_ne]
                  exact ha'
                exact ih (e :: f :: a3) (isWordChar c) c1 c2 b
                  (by simp only [List.length_cons]; omega) ha2 h1 h2 hb

/-! ### Completeness of the scanner for three-letter runs -/

theorem scanCodes_complete3_head (c1 c2 c3 : Char) (b : List Char)
    (h1 : isUpperAZ c1 = true) (h2 : isUpperAZ c2 = true)
    (h3 : isUpperAZ c3 = true) (hb : boundaryAfter b = true) :
    String.mk [c1, c2, c3] ∈ scanCodes false (c1 :: c2 :: c3 :: b) := by
  rw [scanCodes_big]
  have hcond : (!false && isUpperAZ c1 && isUpperAZ c2) = true := by
    simp [h1, h2]
  rw [hcond, if_pos rfl, if_pos h3, if_pos hb]
  exact List.mem_cons_self _ _

theorem scanCodes_complete3 :
    ∀ (n : Nat) (a : List Char) (pw : Bool) (c1 c2 c3 : Char) (b : List Char),
      a.length ≤ n →
      endsNonWord pw a = true →
      isUpperAZ c1 = true → isUpperAZ c2 = true → isUpperAZ c3 = true →
      boundaryAfter b = true →
      String.mk [c1, c2, c3] ∈ scanCodes pw (a ++ c1 :: c2 :: c3 :: b) := by
  intro n
  induction n with
  | zero =>
      intro a pw c1 c2 c3 b hlen ha h1 h2 h3 hb
      have haa : a = [] := List.length_eq_zero.mp (Nat.le_zero.mp hlen)
      subst haa
      have hpw : pw = false := by simpa [endsNonWord] using ha
      subst hpw
      exact scanCodes_complete3_head c1 c2 c3 b h1 h2 h3 hb
  | succ n ih =>
      intro a pw c1 c2 c3 b hlen ha h1 h2 h3 hb
      cases a with
      | nil =>
          have hpw : pw = false := by simpa [endsNonWord] using ha
          subst hpw
          exact scanCodes_complete3_head c1 c2 c3 b h1 h2 h3 hb
      | cons c a2 =>
        cases a2 with
        | nil =>
            have hwc : isWordChar c = false := by
              rw [endsNonWord_single] at ha
              simpa using ha
            have hcu : isUpperAZ c = false := upper_eq_false_of_not_word hwc
            show String.mk [c1, c2, c3] ∈
              scanCodes pw (c :: c1 :: c2 :: c3 :: b)
            rw [scanCodes_big]
            have hc0 : (!pw && isUpperAZ c && isUpperAZ c1) = false := by
              simp [hcu]
            rw [hc0, if_neg Bool.false_ne_true, hwc]
            exact scanCodes_complete3_head c1 c2 c3 b h1 h2 h3 hb
        | cons e a23 =>
          cases a23 with
          | nil =>
              have hwe : isWordChar e = false := by
                rw [endsNonWord_cons pw c [e] (by simp), endsNonWord_single] at ha
                simpa using ha
              have heu : isUpperAZ e = false := upper_eq_false_of_not_word hwe
              show String.mk [c1, c2, c3] ∈
                scanCodes pw (c :: e :: c1 :: c2 :: c3 :: b)
              rw [scanCodes_big]
              have hc0 : (!pw && isUpperAZ c && isUpperAZ e) = false := by
                simp [heu]
              rw [hc0, if_neg Bool.false_ne_true]
              have hlen' : ([e] : List Char).length ≤ n := by
                simp only [List.length_cons, List.length_nil] at hlen ⊢
                omega
              exact ih [e] (isWordChar c) c1 c2 c3 b hlen'
                (by rw [endsNonWord_single]; simpa using hwe) h1 h2 h3 hb
          | cons f a3 =>
              have hrest_ne : (e :: f :: a3 : List Char) ≠ [] := by simp
              have ha' : endsNonWord pw (e :: f :: a3) = true := by
                rw [← endsNonWord_cons pw c _ hrest_ne]
                exact ha
              have hlen3 : a3.length + 3 ≤ n + 1 := by simpa using hlen
              show String.mk [c1, c2, c3] ∈
                scanCodes pw (c :: e :: f :: (a3 ++ c1 :: c2 :: c3 :: b))
              rw [scanCodes_big]
              by_cases hcond : (!pw && isUpperAZ c && isUpperAZ e) = true
              · rw [Bool.and_eq_true, Bool.and_eq_true, Bool.not_eq_true'] at hcond
                obtain ⟨⟨hpw, hc⟩, he⟩ := hcond
                subst hpw
                by_cases huf : isUpperAZ f = true
                · rw [if_pos (by simp [hc, he] :
                      (!false && isUpperAZ c && isUpperAZ e) = true)]
                  rw [if_pos huf]
                  by_cases hbf : boundaryAfter (a3 ++ c1 :: c2 :: c3 :: b) = true
                  · rw [if_pos hbf]
                    have ha3ne : a3 ≠ [] := by
                      intro hnil
                      subst hnil
                      rw [endsNonWord_cons _ e [f] (by simp), endsNonWord_single,
                        isWordChar_of_isUpperAZ huf] at ha'
                      cases ha'
                    have ha3 : endsNonWord true a3 = true := by
                      rw [← endsNonWord_append false true [e, f] a3 ha3ne]
                      exact ha'
                    exact List.mem_cons_of_mem _
                      (ih a3 true c1 c2 c3 b (by omega) ha3 h1 h2 h3 hb)
                  · rw [if_neg hbf]
                    have ha2 : endsNonWord (isWordChar c) (e :: f :: a3) = true := by
                      rw [endsNonWord_flag (isWordChar c) false _ hrest_ne]
                      exact ha'
                    exact ih (e :: f :: a3) (isWordChar c) c1 c2 c3 b
                      (by simp only [List.length_cons]; omega) ha2 h1 h2 h3 hb
                · rw [if_pos (by simp [hc, he] :
                      (!false && isUpperAZ c && isUpperAZ e) = true)]
                  rw [if_neg huf]
                  by_cases hwf : isWordChar f = true
                  · have hnw : (!isWordChar f) = false := by simp [hwf]
                    rw [hnw, if_neg Bool.false_ne_true]
                    have ha2 : endsNonWord (isWordChar c) (e :: f :: a3) = true := by
                      rw [endsNonWord_flag (isWordChar c) false _ hrest_ne]
                      exact ha'
                    exact ih (e :: f :: a3) (isWordChar c) c1 c2 c3 b
                      (by simp only [List.length_cons]; omega) ha2 h1 h2 h3 hb
                  · have hwfF : isWordChar f = false := bool_eq_false hwf
                    have hnw : (!isWordChar f) = true := by simp [hwfF]
                    rw [hnw, if_pos rfl]
                    have haf : endsNonWord true (f :: a3) = true := by
                      rw [← endsNonWord_append false true [e] (f :: a3) (by simp)]
                      exact ha'
                    exact List.mem_cons_of_mem _
                      (ih (f :: a3) true c1 c2 c3 b
                        (by simp only [List.length_cons]; omega) haf h1 h2 h3 hb)
              · have hc0 : (!pw && isUpperAZ c && isUpperAZ e) = false :=
                  bool_eq_false hcond
                rw [hc0, if_neg Bool.false_ne_true]
                have ha2 : endsNonWord (isWordChar c) (e :: f :: a3) = true := by
                  rw [endsNonWord_flag (isWordChar c) pw _ hrest_ne]
                  exact ha'
                exact ih (e :: f :: a3) (isWordChar c) c1 c2 c3 b
                  (by simp only [List.length_cons]; omega) ha2 h1 h2 h3 hb

/-! ### Membership through the guarded folds of `parseCountries` -/

theorem mem_foldl_mono {α : Type} (f : List String → α → List String)
    (hf : ∀ acc y x, x ∈ acc → x ∈ f acc y) :
    ∀ (l : List α) (s : List String) (x : String), x ∈ s → x ∈ l.foldl f s := by
  intro l
  induction l with
  | nil => intro s x h; exact h
  | cons y t ih => intro s x h; exact ih _ _ (hf s y x h)

theorem scanFold_step_mono : ∀ (acc : List String) (y x : String), x ∈ acc →
    x ∈ (if y ∈ skipCodes then acc else setAdd acc y) := by
  intro acc y x h
  split
  · exact h
  · exact mem_setAdd_of_mem h

theorem pipeFold_step_mono : ∀ (acc : List String) (y x : String), x ∈ acc →
    x ∈ (if isAllUpper23 y = true ∧ y ∉ skipCodes then setAdd acc y else acc) := by
  intro acc y x h
  split
  · exact mem_setAdd_of_mem h
  · exact h

theorem mem_scanFold {l s : List String} {x : String}
    (h : x ∈ l.foldl
      (fun acc code => if code ∈ skipCodes then acc else setAdd acc code) s) :
    x ∈ s ∨ (x ∈ l ∧ x ∉ skipCodes) := by
  induction l generalizing s with
  | nil => exact Or.inl h
  | cons y t ih =>
      rw [List.foldl_cons] at h
      rcases ih h with h' | h'
      · by_cases hy : y ∈ skipCodes
        · rw [if_pos hy] at h'
          exact Or.inl h'
        · rw [if_neg hy] at h'
          rcases mem_setAdd.mp h' with h2 | rfl
          · exact Or.inl h2
          · exact Or.inr ⟨List.mem_cons_self _ _, hy⟩
      · exact Or.inr ⟨List.mem_cons_of_mem _ h'.1, h'.2⟩

theorem mem_scanFold_of_mem {l : List String} (s : List String) {x : String}
    (hx : x ∈ l) (hskip : x ∉ skipCodes) :
    x ∈ l.foldl
      (fun acc code => if code ∈ skipCodes then acc else setAdd acc code) s := by
  induction l generalizing s with
  | nil => cases hx
  | cons y t ih =>
      rw [List.foldl_cons]
      rcases List.mem_cons.mp hx with rfl | hx'
      · rw [if_neg hskip]
        exact mem_foldl_mono _ scanFold_step_mono t _ x mem_setAdd_self
      · exact ih _ hx'

theorem mem_pipeFold {l s : List String} {x : String}
    (h : x ∈ l.foldl
      (fun acc code =>
        if isAllUpper23 code = true ∧ code ∉ skipCodes then setAdd acc code
        else acc) s) :
    x ∈ s ∨ (isAllUpper23 x = true ∧ x ∉ skipCodes) := by
  induction l generalizing s with
  | nil => exact Or.inl h
  | cons y t ih =>
      rw [List.foldl_cons] at h
      rcases ih h with h' | h'
      · by_cases hy : isAllUpper23 y = true ∧ y ∉ skipCodes
        · rw [if_pos hy] at h'
          rcases mem_setAdd.mp h' with h2 | rfl
          · exact Or.inl h2
          · exact Or.inr hy
        · rw [if_neg hy] at h'
          exact Or.inl h'
      · exact Or.inr h'

/-! ### The CountrySet element invariant -/

/-- Every element a CountrySet can ever hold: the outside-region sentinel or
a 2-3 letter uppercase token, and never a deny-listed token. -/
def GoodCode (c : String) : Prop :=
  (c = "__OUTSIDE_EU__" ∨
    ((c.data.length = 2 ∨ c.data.length = 3) ∧ ∀ ch ∈ c.data, isUpperAZ ch = true)) ∧
  c ∉ skipCodes

theorem isAllUpper23_iff {x : String} : isAllUpper23 x = true ↔
    ((x.data.length = 2 ∨ x.data.length = 3) ∧ ∀ ch ∈ x.data, isUpperAZ ch = true) := by
  unfold isAllUpper23
  split
  · next hcond => exact iff_of_true rfl hcond
  · next hcond => exact iff_of_false (by simp) hcond

theorem euExpansionList_good : ∀ c ∈ euExpansionList, GoodCode c := by
  unfold GoodCode
  decide

theorem parseCountries_good : ∀ (s : String) (c : String),
    c ∈ parseCountries s → GoodCode c := by
  intro s c h
  have good_cs1 : ∀ x : String,
      x ∈ (if jsIncludes s "Within EU" = true then
            euExpansionList.foldl setAdd [] else ([] : List String)) →
      GoodCode x := by
    intro x hx
    split at hx
    · rcases (mem_foldl_setAdd _ _ _).mp hx with h0 | h0
      · cases h0
      · exact euExpansionList_good _ h0
    · cases hx
  simp only [parseCountries] at h
  split at h
  · cases h
  · rcases mem_pipeFold h with h3 | hprop
    · rcases mem_scanFold h3 with h2 | ⟨hscan, hskip⟩
      · by_cases hOut : jsIncludes s "Outside of EU" = true
        · rw [if_pos hOut] at h2
          rcases mem_setAdd.mp h2 with h1 | rfl
          · exact good_cs1 c h1
          · exact ⟨Or.inl rfl, by decide⟩
        · rw [if_neg hOut] at h2
          exact good_cs1 c h2
      · obtain ⟨hshape, _, _, _, _, _⟩ := scanCodes_sound false _ c hscan
        exact ⟨Or.inr hshape, hskip⟩
    · exact ⟨Or.inr (isAllUpper23_iff.mp hprop.1), hprop.2⟩

theorem parseCountries_mem_of_scan {s : String} {code : String}
    (hs : ¬ s = "") (hscan : code ∈ scanCodes false s.data)
    (hskip : code ∉ skipCodes) :
    code ∈ parseCountries s := by
  simp only [parseCountries, hs, if_false]
  exact mem_foldl_mono _ pipeFold_step_mono _ _ _
    (mem_scanFold_of_mem _ hscan hskip)

theorem countryMatches_of_mem {country : String} {allowed : List String}
    {iob : Bool} (h : jsToUpper country ∈ allowed) :
    countryMatches country allowed iob = true := by
  unfold countryMatches
  rw [if_pos h]

/-! ### The CountrySet invariant through both passes of `parseMatrix` -/

/-- Every set stored in the lookup consists of `GoodCode` elements. -/
def EntriesOK (l : MatrixLookup) : Prop := ∀ p ∈ l, ∀ c ∈ p.2, GoodCode c

theorem entriesOK_lookupSet {l : MatrixLookup} {k : String} {v : List String}
    (hl : EntriesOK l) (hv : ∀ c ∈ v, GoodCode c) :
    EntriesOK (lookupSet l k v) := by
  intro p hp
  rcases mem_lookupSet hp with h | rfl
  · exact hl p h
  · exact hv

theorem goodCode_foldl_setAdd {init l : List String}
    (hi : ∀ c ∈ init, GoodCode c) (hl : ∀ c ∈ l, GoodCode c) :
    ∀ c ∈ l.foldl setAdd init, GoodCode c := by
  intro c hc
  rcases (mem_foldl_setAdd l init c).mp hc with h | h
  · exact hi c h
  · exact hl c h

theorem parseMatrixLine_entriesOK (acc : MatrixLookup × List String)
    (line : String) (h : EntriesOK acc.1) :
    EntriesOK (parseMatrixLine acc line).1 := by
  simp only [parseMatrixLine]
  split
  · exact h
  · split
    · exact h
    · split
      · exact h
      · split
        · exact h
        · refine entriesOK_lookupSet h (goodCode_foldl_setAdd ?_ ?_)
          · intro c hc
            cases hg : lookupGet acc.1
                (jsTrim ((jsSplitC '\t' (jsTrim line)).getD 1 "")) with
            | none => rw [hg] at hc; cases hc
            | some s0 =>
                rw [hg] at hc
                exact h _ (lookupGet_mem hg) c hc
          · exact parseCountries_good _

theorem pass1_entriesOK (txt : String) : EntriesOK (pass1 txt).1 := by
  unfold pass1
  have h : ∀ (lines : List String) (acc : MatrixLookup × List String),
      EntriesOK acc.1 → EntriesOK (lines.foldl parseMatrixLine acc).1 := by
    intro lines
    induction lines with
    | nil => intro acc h; exact h
    | cons x t ih => intro acc h; exact ih _ (parseMatrixLine_entriesOK acc x h)
  exact h _ ([], []) (fun p hp => absurd hp (List.not_mem_nil p))

theorem pass2_inner_good {l : MatrixLookup} (h : EntriesOK l) :
    ∀ (ms : List String) (init : List String), (∀ c ∈ init, GoodCode c) →
      ∀ c ∈ ms.foldl
        (fun cs m =>
          match lookupGet l m with
          | some sc => if sc.length > 0 then sc.foldl setAdd cs else cs
          | none => cs) init, GoodCode c := by
  intro ms
  induction ms with
  | nil => intro init hi c hc; exact hi c hc
  | cons m t ih =>
      intro init hi c hc
      rw [List.foldl_cons] at hc
      refine ih _ ?_ c hc
      intro x hx
      cases hg : lookupGet l m with
      | none => simp only [hg] at hx; exact hi x hx
      | some sc =>
          simp only [hg] at hx
          split at hx
          · rcases (mem_foldl_setAdd sc init x).mp hx with h1 | h1
            · exact hi x h1
            · exact h _ (lookupGet_mem hg) x h1
          · exact hi x hx

theorem pass2step_entriesOK {l : MatrixLookup} (h : EntriesOK l) (k : String) :
    EntriesOK (pass2step l k) := by
  cases hg : lookupGet l k with
  | none => simp only [pass2step, hg]; exact h
  | some cs =>
      simp only [pass2step, hg]
      split
      · exact entriesOK_lookupSet h
          (pass2_inner_good h _ cs (h _ (lookupGet_mem hg)))
      · exact h

theorem foldl_pass2step_entriesOK :
    ∀ (tl : List String) (l : MatrixLookup), EntriesOK l →
      EntriesOK (tl.foldl pass2step l) := by
  intro tl
  induction tl with
  | nil => intro l h; exact h
  | cons t ts ih => intro l h; exact ih _ (pass2step_entriesOK h t)

theorem parseMatrix_entriesOK (txt : String) : EntriesOK (parseMatrix txt) := by
  unfold parseMatrix
  exact foldl_pass2step_entriesOK _ _ (pass1_entriesOK txt)

/-! ### Pass 2 touches only tracked keys -/

theorem lookupGet_pass2step_ne {l : MatrixLookup} {t k : String} (h : t ≠ k) :
    lookupGet (pass2step l t) k = lookupGet l k := by
  cases hg : lookupGet l t with
  | none => simp only [pass2step, hg]
  | some cs =>
      simp only [pass2step, hg]
      split
      · exact lookupGet_lookupSet_ne l t k _ h
      · rfl

theorem lookupGet_foldl_pass2step :
    ∀ (tl : List String) (l : MatrixLookup) (k : String), k ∉ tl →
      lookupGet (tl.foldl pass2step l) k = lookupGet l k := by
  intro tl
  induction tl with
  | nil => intro l k _; rfl
  | cons t ts ih =>
      intro l k h
      rw [List.foldl_cons, ih _ k (fun hk => h (List.mem_cons_of_mem _ hk))]
      exact lookupGet_pass2step_ne (fun ht => h (ht ▸ List.mem_cons_self t ts))

/-! ### Skipped lines leave the accumulator unchanged -/

theorem parseMatrixLine_skip {acc : MatrixLookup × List String} {line : String}
    (h : lineAccepted line = false) : parseMatrixLine acc line = acc := by
  simp only [parseMatrixLine]
  split
  · rfl
  · next h1 =>
      split
      · rfl
      · next h2 =>
          split
          · rfl
          · next h3 =>
              split
              · rfl
              · next h4 =>
                  exfalso
                  unfold lineAccepted at h
                  rw [if_neg h1, if_neg h2, if_neg h3, if_neg h4] at h
                  cases h

theorem pass1_all_skipped {txt : String}
    (h : ∀ line ∈ jsSplitC '\n' txt, lineAccepted line = false) :
    pass1 txt = ([], []) := by
  unfold pass1
  have haux : ∀ (lines : List String) (acc : MatrixLookup × List String),
      (∀ line ∈ lines, lineAccepted line = false) →
      lines.foldl parseMatrixLine acc = acc := by
    intro lines
    induction lines with
    | nil => intro acc _; rfl
    | cons x t ih =>
        intro acc hx
        rw [List.foldl_cons, parseMatrixLine_skip (hx x (List.mem_cons_self x t))]
        exact ih acc (fun line hl => hx line (List.mem_cons_of_mem _ hl))
  exact haux _ _ h

/-! ### Characterization of the similarity search -/

theorem data_mk (l : List Char) : (String.mk l).data = l := rfl

theorem joinSep_toLower_ne : ∀ (ps : List String), 2 ≤ ps.length →
    jsToLower (joinSep '_' ps) ≠ "" := by
  intro ps h
  match ps, h with
  | x :: y :: rest, _ =>
      intro hcon
      have hdata : (jsToLower (joinSep '_' (x :: y :: rest))).data = [] := by
        rw [hcon]
      unfold jsToLower joinSep at hdata
      rw [data_mk, data_mk] at hdata
      simp [List.intercalate, List.intersperse] at hdata

theorem similarKeep_iff {t bp bs : String} {p : String × List String} :
    similarKeep t bp bs p = true ↔
      (p.1 ≠ t ∧ p.2 ≠ []) ∧
        (normalizeKey p.1 = bp ∨
          (bs ≠ "" ∧ jsStarts (jsToLower p.1) (bs ++ "_") = true ∧
            5 ≤ p.2.length)) := by
  unfold similarKeep
  by_cases h1 : p.1 = t ∨ p.2.length = 0
  · rw [if_pos h1]
    constructor
    · intro hf
      cases hf
    · rintro ⟨⟨hne, hsne⟩, _⟩
      rcases h1 with h | h
      · exact absurd h hne
      · exact absurd (List.length_eq_zero.mp h) hsne
  · rw [if_neg h1]
    push_neg at h1
    have hstruct : p.1 ≠ t ∧ p.2 ≠ [] :=
      ⟨h1.1, fun he => h1.2 (by rw [he]; rfl)⟩
    by_cases h2 : normalizeKey p.1 = bp
    · rw [if_pos h2]
      exact iff_of_true rfl ⟨hstruct, Or.inl h2⟩
    · rw [if_neg h2]
      by_cases h3 : bs ≠ "" ∧ jsStarts (jsToLower p.1) (bs ++ "_") = true
      · rw [if_pos h3]
        by_cases h4 : 5 ≤ p.2.length
        · rw [if_pos h4]
          exact iff_of_true rfl ⟨hstruct, Or.inr ⟨h3.1, h3.2, h4⟩⟩
        · rw [if_neg h4]
          constructor
          · intro hf
            cases hf
          · rintro ⟨_, hd⟩
            rcases hd with hd | hd
            · exact absurd hd h2
            · exact absurd hd.2.2 h4
      · rw [if_neg h3]
        constructor
        · intro hf
          cases hf
        · rintro ⟨_, hd⟩
          rcases hd with hd | hd
          · exact absurd hd h2
          · exact absurd ⟨hd.1, hd.2.1⟩ h3

theorem findSimilar_mem_iff (t : String) (l : MatrixLookup) (m : String) :
    m ∈ findSimilarShipMethods t l ↔
      ∃ s, (m, s) ∈ l ∧ m ≠ t ∧ s ≠ [] ∧
        (normalizeKey m = normalizeKey t ∨
          ((jsSplitC '_' t).length > 2 ∧
            jsStarts (jsToLower m)
              (jsToLower (joinSep '_' (jsSplitC '_' t).dropLast) ++ "_") = true ∧
            5 ≤ s.length)) := by
  simp only [findSimilarShipMethods, List.mem_map, List.mem_filter]
  constructor
  · rintro ⟨⟨m', s⟩, ⟨hmem, hkeep⟩, heq⟩
    simp only at heq
    subst heq
    rw [similarKeep_iff] at hkeep
    obtain ⟨⟨hne, hsne⟩, hdisj⟩ := hkeep
    refine ⟨s, hmem, hne, hsne, ?_⟩
    rcases hdisj with hd | ⟨hbs, hst, h5⟩
    · exact Or.inl hd
    · by_cases hlen : (jsSplitC '_' t).length > 2
      · rw [if_pos hlen] at hst
        exact Or.inr ⟨hlen, hst, h5⟩
      · rw [if_neg hlen] at hbs
        exact absurd rfl hbs
  · rintro ⟨s, hmem, hne, hsne, hdisj⟩
    refine ⟨(m, s), ⟨hmem, ?_⟩, rfl⟩
    rw [similarKeep_iff]
    refine ⟨⟨hne, hsne⟩, ?_⟩
    rcases hdisj with hd | ⟨hlen, hst, h5⟩
    · exact Or.inl hd
    · refine Or.inr ⟨?_, ?_, h5⟩
      · rw [if_pos hlen]
        exact joinSep_toLower_ne _ (by rw [List.length_dropLast]; omega)
      · rw [if_pos hlen]
        exact hst

/-! ## Claim theorems -/

/-- C1 (counterexample): the ship method `CARR_AIR_UD_STD` has an empty
CountrySet after pass 1 (its only country text, "none", parses to nothing)
and has a similar key `CARR_AIR_STD` holding `{GB, IE}`; yet its final
CountrySet is still empty, because its country text was non-empty after
trimming, so the key was never tracked and the inference pass never ran
for it — refuting the claim that inference runs for every key whose
CountrySet is empty after pass 1. -/
theorem C1_counterexample :
    lookupGet
      (pass1Lookup "LogSpec\tCARR_AIR_UD_STD\tnone\nLogSpec\tCARR_AIR_STD\tGB|IE")
      "CARR_AIR_UD_STD" = some [] ∧
    findSimilarShipMethods "CARR_AIR_UD_STD"
      (pass1Lookup "LogSpec\tCARR_AIR_UD_STD\tnone\nLogSpec\tCARR_AIR_STD\tGB|IE") =
      ["CARR_AIR_STD"] ∧
    lookupGet
      (pass1Lookup "LogSpec\tCARR_AIR_UD_STD\tnone\nLogSpec\tCARR_AIR_STD\tGB|IE")
      "CARR_AIR_STD" = some ["GB", "IE"] ∧
    lookupGet
      (parseMatrix "LogSpec\tCARR_AIR_UD_STD\tnone\nLogSpec\tCARR_AIR_STD\tGB|IE")
      "CARR_AIR_UD_STD" = some [] :=
  ⟨by decide, by decide, by decide, by decide⟩

/-- C1 (amended): the inference pass iterates only over ship methods that
had at least one contributing line whose country field was empty after
trimming (the tracked keys); any other ship method — even one whose
CountrySet is empty after pass 1 — keeps its pass-1 CountrySet unchanged. -/
theorem C1_untracked_key_unchanged (txt k : String)
    (h : k ∉ trackedKeys txt) :
    lookupGet (parseMatrix txt) k = lookupGet (pass1Lookup txt) k := by
  simp only [parseMatrix, pass1Lookup]
  exact lookupGet_foldl_pass2step _ _ k h

/-- C1 (witness): the amended theorem applied to the counterexample text
and the untracked key `CARR_AIR_UD_STD`. -/
theorem C1_witness :
    lookupGet
      (parseMatrix "LogSpec\tCARR_AIR_UD_STD\tnone\nLogSpec\tCARR_AIR_STD\tGB|IE")
      "CARR_AIR_UD_STD" =
    lookupGet
      (pass1Lookup "LogSpec\tCARR_AIR_UD_STD\tnone\nLogSpec\tCARR_AIR_STD\tGB|IE")
      "CARR_AIR_UD_STD" :=
  C1_untracked_key_unchanged _ _ (by decide)

/-- C2 (counterexample): both `CARR_AIR_UD_STD_D2A` and
`CARR_AIR_UD_STD_EXTRA` are empty after pass 1, and no key similar to
`CARR_AIR_UD_STD_EXTRA` exists in the pass-1 lookup (its only prefix
sibling, `CARR_AIR_UD_STD_D2A`, is still empty there); yet after the full
parse `CARR_AIR_UD_STD_EXTRA` holds six countries — they arrived through
`CARR_AIR_UD_STD_D2A`, which was itself filled by inference earlier in the
same pass, refuting non-transitivity. -/
theorem C2_counterexample :
    lookupGet
      (pass1Lookup "LogSpec\tCARR_AIR_STD_D2A\tGB|IE\nLogSpec\tCARR_AIRHAZ_STD_D2A\tFR|DE\nLogSpec\tCARR_AIR_STD_D2A_LICENSE\tES|PT\nLogSpec\tCARR_AIR_UD_STD_D2A\t\t.\nLogSpec\tCARR_AIR_UD_STD_EXTRA\t\t.")
      "CARR_AIR_UD_STD_D2A" = some [] ∧
    lookupGet
      (pass1Lookup "LogSpec\tCARR_AIR_STD_D2A\tGB|IE\nLogSpec\tCARR_AIRHAZ_STD_D2A\tFR|DE\nLogSpec\tCARR_AIR_STD_D2A_LICENSE\tES|PT\nLogSpec\tCARR_AIR_UD_STD_D2A\t\t.\nLogSpec\tCARR_AIR_UD_STD_EXTRA\t\t.")
      "CARR_AIR_UD_STD_EXTRA" = some [] ∧
    findSimilarShipMethods "CARR_AIR_UD_STD_EXTRA"
      (pass1Lookup "LogSpec\tCARR_AIR_STD_D2A\tGB|IE\nLogSpec\tCARR_AIRHAZ_STD_D2A\tFR|DE\nLogSpec\tCARR_AIR_STD_D2A_LICENSE\tES|PT\nLogSpec\tCARR_AIR_UD_STD_D2A\t\t.\nLogSpec\tCARR_AIR_UD_STD_EXTRA\t\t.") =
      [] ∧
    lookupGet
      (parseMatrix "LogSpec\tCARR_AIR_STD_D2A\tGB|IE\nLogSpec\tCARR_AIRHAZ_STD_D2A\tFR|DE\nLogSpec\tCARR_AIR_STD_D2A_LICENSE\tES|PT\nLogSpec\tCARR_AIR_UD_STD_D2A\t\t.\nLogSpec\tCARR_AIR_UD_STD_EXTRA\t\t.")
      "CARR_AIR_UD_STD_EXTRA" = some ["GB", "IE", "FR", "DE", "ES", "PT"] :=
  ⟨by decide, by decide, by decide, by decide⟩

/-- C2 (amended): the inference pass is single-pass in tracking order, but
not non-transitive: a key filled by inference earlier in the pass can
contribute its newly inferred countries to a later target.  What does hold
is that the similarity search only ever returns keys whose CountrySet is
non-empty in the lookup state at the moment the target is processed. -/
theorem C2_similar_only_nonempty (k : String) (l : MatrixLookup) (m : String)
    (h : m ∈ findSimilarShipMethods k l) :
    ∃ s, (m, s) ∈ l ∧ s ≠ [] := by
  obtain ⟨s, hmem, _, hsne, _⟩ := (findSimilar_mem_iff k l m).mp h
  exact ⟨s, hmem, hsne⟩

/-- C2 (witness): the amended theorem applied to a one-entry lookup in
which `A` is similar to `A_UD` by suffix-stripping. -/
theorem C2_witness : ∃ s, ("A", s) ∈ [("A", ["GB"])] ∧ s ≠ [] :=
  C2_similar_only_nonempty "A_UD" [("A", ["GB"])] "A" (by decide)

/-- C3: the mixed country text "GB, plus Outside of EU shipments" yields a
CountrySet containing both the literal code `GB` and the outside-region
sentinel, and a record with that ship method and non-EU country `JP` (never
listed literally) passes the membership filter via the sentinel. -/
theorem C3_mixed_entry :
    "GB" ∈ parseCountries "GB, plus Outside of EU shipments" ∧
    "__OUTSIDE_EU__" ∈ parseCountries "GB, plus Outside of EU shipments" ∧
    filterLogspecLines [(⟨"D1", "M", "JP", "C", "0"⟩ : DataRow)]
      (parseMatrix "LogSpec\tM\tGB, plus Outside of EU shipments") =
      [(⟨"D1", "M", "JP", "C", "0"⟩ : DataRow)] :=
  ⟨by decide, by decide, by decide⟩

/-- C4 (counterexample): the scan's boundaries are JS word boundaries, so a
digit or underscore does not bound a run: "GB2" and "GB_FR" yield no codes
at all, although under the claim (digits and underscores acting as bounds)
"GB" would be a candidate in the first and both "GB" and "FR" in the
second. -/
theorem C4_counterexample :
    parseCountries "GB2" = [] ∧ parseCountries "GB_FR" = [] :=
  ⟨by decide, by decide⟩

/-- C4 (amended), both directions.  Soundness: every code emitted by the
scan is a run of 2-3 uppercase letters occurring in the text with a word
boundary on each side — the character before (if any) and after (if any)
the run is a non-word character, where letters, digits, and underscores
are all word characters (so digits and underscores do not act as bounds).
Completeness: every run of 2-3 uppercase letters bounded on both sides by
a non-word character or a string edge (such a run is automatically
maximal) is emitted by the scan, and — unless it is on the deny-list —
ends up in the CountrySet produced by `parseCountries`.  And deny-listed
tokens never reach any resulting CountrySet. -/
theorem C4_scan_bounded :
    (∀ (pw : Bool) (l : List Char) (code : String), code ∈ scanCodes pw l →
      ((code.data.length = 2 ∨ code.data.length = 3) ∧
        (∀ c ∈ code.data, isUpperAZ c = true)) ∧
      ∃ a b, l = a ++ code.data ++ b ∧ endsNonWord pw a = true ∧
        boundaryAfter b = true) ∧
    (∀ (s : String) (a r b : List Char),
      s.data = a ++ r ++ b →
      (r.length = 2 ∨ r.length = 3) →
      (∀ c ∈ r, isUpperAZ c = true) →
      endsNonWord false a = true →
      boundaryAfter b = true →
      String.mk r ∈ scanCodes false s.data ∧
      (String.mk r ∉ skipCodes → String.mk r ∈ parseCountries s)) ∧
    (∀ (s : String) (c : String), c ∈ skipCodes → c ∉ parseCountries s) := by
  refine ⟨scanCodes_sound, ?_,
    fun s c hc hmem => (parseCountries_good s c hmem).2 hc⟩
  intro s a r b hdec hlen hupper hla hb
  have hscan : String.mk r ∈ scanCodes false s.data := by
    rw [hdec]
    rcases hlen with h2 | h3
    · obtain ⟨c1, c2, rfl⟩ := List.length_eq_two.mp h2
      rw [List.append_assoc]
      simp only [List.cons_append, List.nil_append]
      exact scanCodes_complete2 a.length a false c1 c2 b (le_refl _) hla
        (hupper c1 (by simp)) (hupper c2 (by simp)) hb
    · obtain ⟨c1, c2, c3, rfl⟩ := List.length_eq_three.mp h3
      rw [List.append_assoc]
      simp only [List.cons_append, List.nil_append]
      exact scanCodes_complete3 a.length a false c1 c2 c3 b (le_refl _) hla
        (hupper c1 (by simp)) (hupper c2 (by simp)) (hupper c3 (by simp)) hb
  refine ⟨hscan, fun hskip => ?_⟩
  have hsne : ¬ s = "" := by
    intro he
    have h0 : (s.data).length = 0 := by
      rw [he]
      rfl
    rw [hdec] at h0
    simp only [List.length_append] at h0
    rcases hlen with h2 | h3 <;> omega
  exact parseCountries_mem_of_scan hsne hscan hskip

/-- C4 (witness): the amended theorem applied to the input "GB," — the
soundness direction at the emitted code "GB", the completeness direction
at the bounded run G-B (start of text, then a comma), and the deny-list
direction at the token "NC" in "NC Import Only". -/
theorem C4_witness :
    (((("GB" : String).data.length = 2 ∨ ("GB" : String).data.length = 3) ∧
      (∀ c ∈ ("GB" : String).data, isUpperAZ c = true)) ∧
      ∃ a b, ("GB," : String).data = a ++ ("GB" : String).data ++ b ∧
        endsNonWord false a = true ∧ boundaryAfter b = true) ∧
    (String.mk ['G', 'B'] ∈ scanCodes false ("GB," : String).data ∧
      String.mk ['G', 'B'] ∈ parseCountries "GB,") ∧
    "NC" ∉ parseCountries "NC Import Only" :=
  ⟨C4_scan_bounded.1 false ("GB," : String).data "GB" (by decide),
   ⟨(C4_scan_bounded.2.1 "GB," [] ['G', 'B'] [','] (by decide) (by decide)
      (by decide) (by decide) (by decide)).1,
    (C4_scan_bounded.2.1 "GB," [] ['G', 'B'] [','] (by decide) (by decide)
      (by decide) (by decide) (by decide)).2 (by decide)⟩,
   C4_scan_bounded.2.2 "NC Import Only" "NC" (by decide)⟩

/-- C5: full characterization of the similarity search, confirming the
shared-prefix heuristic: a key `m` is similar to the target `t` exactly
when it is a different key with a non-empty CountrySet and either the
normalized forms agree, or the target has more than two underscore-split
segments, `m` (lowercased) starts with the lowercased all-but-last-segment
base followed by the separator, and `m`'s CountrySet has at least 5
entries.  In particular a target with two or fewer segments admits no
shared-prefix matches. -/
theorem C5_shared_prefix_similarity (t : String) (l : MatrixLookup)
    (m : String) :
    m ∈ findSimilarShipMethods t l ↔
      ∃ s, (m, s) ∈ l ∧ m ≠ t ∧ s ≠ [] ∧
        (normalizeKey m = normalizeKey t ∨
          ((jsSplitC '_' t).length > 2 ∧
            jsStarts (jsToLower m)
              (jsToLower (joinSep '_' (jsSplitC '_' t).dropLast) ++ "_") = true ∧
            5 ≤ s.length)) :=
  findSimilar_mem_iff t l m

/-- C6: for the lookup built from the single rule line whose country text
is exactly "Outside of EU", the membership filter accepts a record with
country `US` (outside the reference region) and rejects one with country
`FR` (inside it). -/
theorem C6_sentinel_semantics :
    isLogspecLine (⟨"D1", "M", "US", "C", "0"⟩ : DataRow)
      (parseMatrix "LogSpec\tM\tOutside of EU") = true ∧
    isLogspecLine (⟨"D2", "M", "FR", "C", "0"⟩ : DataRow)
      (parseMatrix "LogSpec\tM\tOutside of EU") = false :=
  ⟨by decide, by decide⟩

/-- C7: every element of every CountrySet in any lookup built by
`parseMatrix` is either the outside-region sentinel or a string of 2-3
uppercase letters, and is never one of the deny-list tokens EA, XY, NC;
in particular the country text "NC Import Only" never yields the code
`NC`. -/
theorem C7_country_set_invariant :
    (∀ (txt k : String) (s : List String) (c : String),
      lookupGet (parseMatrix txt) k = some s → c ∈ s →
        (c = "__OUTSIDE_EU__" ∨
          ((c.data.length = 2 ∨ c.data.length = 3) ∧
            ∀ ch ∈ c.data, isUpperAZ ch = true)) ∧
        c ∉ ["EA", "XY", "NC"]) ∧
    "NC" ∉ parseCountries "NC Import Only" := by
  constructor
  · intro txt k s c hget hc
    exact parseMatrix_entriesOK txt _ (lookupGet_mem hget) c hc
  · decide

/-- C7 (witness): the invariant applied to the code `GB` stored for `M` by
the rule line `LogSpec - M - GB|FR`. -/
theorem C7_witness :
    (("GB" : String) = "__OUTSIDE_EU__" ∨
      ((("GB" : String).data.length = 2 ∨ ("GB" : String).data.length = 3) ∧
        ∀ ch ∈ ("GB" : String).data, isUpperAZ ch = true)) ∧
    ("GB" : String) ∉ ["EA", "XY", "NC"] :=
  C7_country_set_invariant.1 "LogSpec\tM\tGB|FR" "M" ["GB", "FR"] "GB"
    (by decide) (by decide)

/-- C8: the membership filter rejects any record whose ship method or
country field is empty or whitespace-only after trimming, whatever the
lookup contains. -/
theorem C8_empty_fields_rejected (row : DataRow) (matrix : MatrixLookup)
    (h : jsTrim row.shipMethod = "" ∨ jsTrim row.country = "") :
    isLogspecLine row matrix = false := by
  simp only [isLogspecLine]
  rw [if_pos h]

/-- C8 (witness): a record with a whitespace-only ship method is rejected
even though the lookup holds a matching country. -/
theorem C8_witness :
    isLogspecLine (⟨"D1", "  ", "GB", "C", "0"⟩ : DataRow)
      [("X", ["GB"])] = false :=
  C8_empty_fields_rejected _ _ (Or.inl (by decide))

/-- C9: totality of the core.  A rule table none of whose lines passes the
validity guards yields the empty lookup (not an error), and for every
record list and lookup the filter returns an order-preserving sublist of
its input; both functions are total Lean functions, so no input can raise
an error. -/
theorem C9_total_core :
    (∀ txt : String,
      (∀ line ∈ jsSplitC '\n' txt, lineAccepted line = false) →
      parseMatrix txt = []) ∧
    (∀ (rows : List DataRow) (lookup : MatrixLookup),
      List.Sublist (filterLogspecLines rows lookup) rows) := by
  constructor
  · intro txt h
    simp only [parseMatrix, pass1_all_skipped h, List.foldl_nil]
  · intro rows lookup
    exact List.filter_sublist rows

/-- C9 (witness): the totality theorem applied to a table whose two lines
are both invalid (no tab-separated fields, then too few fields). -/
theorem C9_witness : parseMatrix "hello\nfoo\tbar" = [] :=
  C9_total_core.1 "hello\nfoo\tbar" (by decide)

/-- C10 (counterexample): the country text "Within EUR" contains the phrase
"Within EU", but the scan matches the three-letter run `EUR`, not `EU`, so
the literal token `EU` is not inserted and a record with country `EU` is
not matched — refuting the claim for arbitrary texts containing the
phrase. -/
theorem C10_counterexample :
    jsIncludes "Within EUR" "Within EU" = true ∧
    "EU" ∉ parseCountries "Within EUR" ∧
    countryMatches "EU" (parseCountries "Within EUR")
      (isCountryOutsideEU "EU") = false :=
  ⟨by decide, by decide, by decide⟩

/-- C10 (amended): whenever the text contains "Within EU" or
"Outside of EU" with the phrase's `EU` not followed by a further word
character (letter, digit, or underscore — e.g. the exact phrases, or the
phrase followed by punctuation, space, or end of text), the literal token
`EU` itself is inserted into the CountrySet, and a record country equal to
`EU` in any letter case is then accepted by the match test. -/
theorem C10_eu_token_inserted (s : String) (a b : List Char)
    (hocc : s.data = a ++ ("Within EU" : String).data ++ b ∨
            s.data = a ++ ("Outside of EU" : String).data ++ b)
    (hb : boundaryAfter b = true) :
    "EU" ∈ parseCountries s ∧
    ∀ country : String, jsToUpper country = "EU" →
      countryMatches country (parseCountries s)
        (isCountryOutsideEU country) = true := by
  have hsne : ¬ s = "" := by
    intro he
    have hed : (s.data).length = 0 := by
      rw [he]
      rfl
    rcases hocc with hocc | hocc <;> (
      rw [hocc] at hed
      simp [List.length_append] at hed)
  have heu : ("EU" : String) = String.mk ['E', 'U'] := by decide
  have hscan : ("EU" : String) ∈ scanCodes false s.data := by
    rcases hocc with hocc | hocc
    · have hshape : a ++ ("Within EU" : String).data ++ b =
          (a ++ ("Within " : String).data) ++ 'E' :: 'U' :: b := by
        have hsplit : ("Within EU" : String).data =
            ("Within " : String).data ++ ['E', 'U'] := by decide
        rw [hsplit]
        simp [List.append_assoc]
      rw [hocc, hshape, heu]
      have hends : endsNonWord false (a ++ ("Within " : String).data) = true := by
        rw [endsNonWord_append false false a _ (by decide)]
        decide
      exact scanCodes_complete2 (a ++ ("Within " : String).data).length
        (a ++ ("Within " : String).data) false 'E' 'U' b (le_refl _)
        hends (by decide) (by decide) hb
    · have hshape : a ++ ("Outside of EU" : String).data ++ b =
          (a ++ ("Outside of " : String).data) ++ 'E' :: 'U' :: b := by
        have hsplit : ("Outside of EU" : String).data =
            ("Outside of " : String).data ++ ['E', 'U'] := by decide
        rw [hsplit]
        simp [List.append_assoc]
      rw [hocc, hshape, heu]
      have hends : endsNonWord false (a ++ ("Outside of " : String).data) =
          true := by
        rw [endsNonWord_append false false a _ (by decide)]
        decide
      exact scanCodes_complete2 (a ++ ("Outside of " : String).data).length
        (a ++ ("Outside of " : String).data) false 'E' 'U' b (le_refl _)
        hends (by decide) (by decide) hb
  have hmemEU : ("EU" : String) ∈ parseCountries s :=
    parseCountries_mem_of_scan hsne hscan (by decide)
  refine ⟨hmemEU, ?_⟩
  intro country hcountry
  apply countryMatches_of_mem
  rw [hcountry]
  exact hmemEU

/-- C10 (witness): the amended theorem applied to the exact text
"Within EU" and the record country "eu". -/
theorem C10_witness :
    ("EU" : String) ∈ parseCountries "Within EU" ∧
    countryMatches "eu" (parseCountries "Within EU")
      (isCountryOutsideEU "eu") = true := by
  have h := C10_eu_token_inserted "Within EU" [] [] (Or.inl (by decide))
    (by decide)
  exact ⟨h.1, h.2 "eu" (by decide)⟩

end Logspec
